import Mathlib

/-!
Shallow embedding of `src/file_knowledge_mcp/search/cache.py` (ContextFS):
the `CacheEntry` dataclass, the `SearchCache` class (fingerprint derivation,
`get`, `set`, `_evict_oldest`, `clear`, `stats`), and the SHA-256 hash it
uses for key derivation.

Modelling choices, each noted where it is used:
- the Python `dict[str, CacheEntry]` is an insertion-ordered association
  list with unique keys (the dict invariant);
- `time.time()` floats are modelled as `Int` timestamps passed explicitly
  as a `now` argument, `ttl_seconds` as `Int`, `max_size` as `Int` (a
  Python `int` may be non-positive);
- `**kwargs` is a list of (name, value) pairs; names are Python
  identifiers (so their `repr` is just the name between single quotes) and
  the values that the repository passes are booleans and integers.
-/

/-- Values that callers pass in `**kwargs` (the repository passes booleans,
e.g. `fuzzy=False`, and integers, e.g. `max_results=5`). -/
inductive PyVal where
  | bool (b : Bool)
  | int (i : Int)
  deriving DecidableEq, Repr

/-- Single-quote character, written by code point to keep string literals
free of quote characters. -/
def quoteChar : Char := Char.ofNat 39

/-- Decimal digit characters, code points 48 through 57. -/
def decChars : List Char := (List.range 10).map (fun d => Char.ofNat (48 + d))

/-- Character of a single decimal digit. -/
def digitChar (n : Nat) : Char := decChars.getD n '0'

/-- Decimal digits of `n`, most significant first; fuel-structured so the
kernel can evaluate it (`fuel > n` suffices). -/
def natDigitsAux : Nat → Nat → List Char
  | 0, _ => []
  | fuel + 1, n =>
    if n < 10 then [digitChar n]
    else natDigitsAux fuel (n / 10) ++ [digitChar (n % 10)]

/-- Python `str` of a non-negative integer: decimal digits. -/
def natRepr (n : Nat) : String := ⟨natDigitsAux (n + 1) n⟩

/-- Python `repr`/`str` of an `int`: decimal, with a leading minus sign
when negative. -/
def intRepr (i : Int) : String :=
  if i < 0 then "-" ++ natRepr (-i).toNat else natRepr i.toNat

/-- Python `repr` of a kwargs value: `True`/`False` for booleans, decimal
for integers. -/
def pyReprVal : PyVal → String
  | .bool true => "True"
  | .bool false => "False"
  | .int i => intRepr i

/-- Python `repr` of one `(name, value)` item of `kwargs.items()`: kwargs
names are Python identifiers, so `repr(name)` is the name between single
quotes and no escaping can occur. -/
def pyReprPair (p : String × PyVal) : String :=
  "(" ++ String.singleton quoteChar ++ p.1 ++ String.singleton quoteChar ++ ", " ++ pyReprVal p.2 ++ ")"

/-- Join a list of strings with a separator, as Python `", ".join`. -/
def joinSep (sep : String) : List String → String
  | [] => ""
  | [s] => s
  | s :: t :: rest => s ++ sep ++ joinSep sep (t :: rest)

/-- Python `str` of a list of items: `[` item `, ` item ... `]`. -/
def pyReprList (items : List String) : String :=
  "[" ++ joinSep ", " items ++ "]"

/-- Lexicographic strict comparison of character lists by code point,
matching Python string `<`. -/
def charListLt : List Char → List Char → Bool
  | [], [] => false
  | [], _ :: _ => true
  | _ :: _, [] => false
  | a :: as, b :: bs =>
    if a.toNat < b.toNat then true
    else if b.toNat < a.toNat then false
    else charListLt as bs

/-- Python string `<` on the underlying code points. -/
def strLt (a b : String) : Bool := charListLt a.data b.data

/-- Ordering used by `sorted(kwargs.items())`: Python compares the
`(name, value)` tuples, which compares names first; kwargs names are
unique (dict keys), so the comparison never reaches the values. -/
def nameLt (a b : String × PyVal) : Bool := strLt a.1 b.1

/-- Insert one pair into a name-sorted list. -/
def insertPair (x : String × PyVal) : List (String × PyVal) → List (String × PyVal)
  | [] => [x]
  | y :: ys => if nameLt x y then x :: y :: ys else y :: insertPair x ys

/-- Model of Python `sorted(kwargs.items())` (insertion sort by name). -/
def pySortKwargs : List (String × PyVal) → List (String × PyVal)
  | [] => []
  | x :: xs => insertPair x (pySortKwargs xs)

/-- Serialization of the kwargs part of the key string: Python
`str(sorted(kwargs.items()))`. -/
def serializeKwargs (l : List (String × PyVal)) : String :=
  pyReprList ((pySortKwargs l).map pyReprPair)

/-- Pre-hash key string of `SearchCache._make_key`:
`f"{query}:{path}:{sorted(kwargs.items())}"`. -/
def key_data (query path : String) (kwargs : List (String × PyVal)) : String :=
  query ++ ":" ++ path ++ ":" ++ serializeKwargs kwargs

/-! SHA-256 (`hashlib.sha256`), over lists of byte values, executable by the
kernel: all recursion is structural and all word arithmetic is `Nat`
arithmetic modulo `2 ^ 32`. -/

/-- UTF-8 encoding of one code point (Python `str.encode()`). -/
def utf8EncodeChar (c : Nat) : List Nat :=
  if c < 128 then [c]
  else if c < 2048 then [192 + c / 64, 128 + c % 64]
  else if c < 65536 then [224 + c / 4096, 128 + c / 64 % 64, 128 + c % 64]
  else [240 + c / 262144, 128 + c / 4096 % 64, 128 + c / 64 % 64, 128 + c % 64]

/-- UTF-8 bytes of a string (Python `str.encode()`). -/
def strBytes (s : String) : List Nat :=
  (s.data.map (fun c => utf8EncodeChar c.toNat)).flatten

/-- Rotate a 32-bit word right by `n` bits. -/
def rotr32 (x n : Nat) : Nat := ((x >>> n) ||| (x <<< (32 - n))) % 4294967296

/-- SHA-256 `Ch` function. -/
def shaCh (x y z : Nat) : Nat := (x &&& y) ^^^ ((x ^^^ 4294967295) &&& z)

/-- SHA-256 `Maj` function. -/
def shaMaj (x y z : Nat) : Nat := (x &&& y) ^^^ (x &&& z) ^^^ (y &&& z)

/-- SHA-256 big sigma 0. -/
def bsig0 (x : Nat) : Nat := rotr32 x 2 ^^^ rotr32 x 13 ^^^ rotr32 x 22

/-- SHA-256 big sigma 1. -/
def bsig1 (x : Nat) : Nat := rotr32 x 6 ^^^ rotr32 x 11 ^^^ rotr32 x 25

/-- SHA-256 small sigma 0. -/
def ssig0 (x : Nat) : Nat := rotr32 x 7 ^^^ rotr32 x 18 ^^^ (x >>> 3)

/-- SHA-256 small sigma 1. -/
def ssig1 (x : Nat) : Nat := rotr32 x 17 ^^^ rotr32 x 19 ^^^ (x >>> 10)

/-- SHA-256 round constants. -/
def shaK : List Nat :=
  [1116352408, 1899447441, 3049323471, 3921009573, 961987163,
   1508970993, 2453635748, 2870763221, 3624381080, 310598401,
   607225278, 1426881987, 1925078388, 2162078206, 2614888103,
   3248222580, 3835390401, 4022224774, 264347078, 604807628,
   770255983, 1249150122, 1555081692, 1996064986, 2554220882,
   2821834349, 2952996808, 3210313671, 3336571891, 3584528711,
   113926993, 338241895, 666307205, 773529912, 1294757372,
   1396182291, 1695183700, 1986661051, 2177026350, 2456956037,
   2730485921, 2820302411, 3259730800, 3345764771, 3516065817,
   3600352804, 4094571909, 275423344, 430227734, 506948616,
   659060556, 883997877, 958139571, 1322822218, 1537002063,
   1747873779, 1955562222, 2024104815, 2227730452, 2361852424,
   2428436474, 2756734187, 3204031479, 3329325298]

/-- SHA-256 initial hash value. -/
def shaH0 : List Nat :=
  [1779033703, 3144134277, 1013904242, 2773480762, 1359893119,
   2600822924, 528734635, 1541459225]

/-- Big-endian bytes of a number, fixed width `w` bytes. -/
def beBytes : Nat → Nat → List Nat
  | 0, _ => []
  | w + 1, n => beBytes w (n / 256) ++ [n % 256]

/-- SHA-256 padding: append `0x80`, zero bytes to 56 mod 64, then the
64-bit big-endian bit length. -/
def shaPad (msg : List Nat) : List Nat :=
  let len := msg.length
  let zeros := (120 - (len + 1) % 64) % 64
  msg ++ [128] ++ List.replicate zeros 0 ++ beBytes 8 (8 * len)

/-- Group bytes into big-endian 32-bit words. -/
def bytesToWords : List Nat → List Nat
  | b0 :: b1 :: b2 :: b3 :: rest =>
    (b0 * 16777216 + b1 * 65536 + b2 * 256 + b3) :: bytesToWords rest
  | _ => []

/-- Split a list into chunks of 16 (`fuel` bounds the recursion; call with
`fuel = l.length`). -/
def chunk16 : Nat → List Nat → List (List Nat)
  | 0, _ => []
  | _ + 1, [] => []
  | fuel + 1, x :: xs => ((x :: xs).take 16) :: chunk16 fuel ((x :: xs).drop 16)

/-- Extend the 16 message-schedule words to 64 (`fuel = 48` rounds of
appending `ssig1 w[t-2] + w[t-7] + ssig0 w[t-15] + w[t-16]`). -/
def extendW : Nat → List Nat → List Nat
  | 0, w => w
  | fuel + 1, w =>
    let t := w.length
    extendW fuel (w ++ [(ssig1 (w.getD (t - 2) 0) + w.getD (t - 7) 0 +
                         ssig0 (w.getD (t - 15) 0) + w.getD (t - 16) 0) % 4294967296])

/-- One SHA-256 compression round on the eight working registers. -/
def shaRound (s : List Nat) (kw : Nat × Nat) : List Nat :=
  match s with
  | [a, b, c, d, e, f, g, h] =>
    let t1 := (h + bsig1 e + shaCh e f g + kw.1 + kw.2) % 4294967296
    let t2 := (bsig0 a + shaMaj a b c) % 4294967296
    [(t1 + t2) % 4294967296, a, b, c, (d + t1) % 4294967296, e, f, g]
  | _ => s

/-- Compress one 16-word block into the running hash. -/
def shaBlock (h : List Nat) (block : List Nat) : List Nat :=
  let w := extendW 48 block
  let s := (shaK.zip w).foldl shaRound h
  (h.zip s).map (fun p => (p.1 + p.2) % 4294967296)

/-- Hexadecimal digit characters: `0`-`9` then `a`-`f`. -/
def hexChars : List Char :=
  (List.range 16).map (fun d => Char.ofNat (if d < 10 then 48 + d else 87 + d))

/-- Hex rendering of a 32-bit word, 8 digits. -/
def wordToHex (w : Nat) : List Char :=
  [hexChars.getD (w / 268435456 % 16) '0', hexChars.getD (w / 16777216 % 16) '0',
   hexChars.getD (w / 1048576 % 16) '0', hexChars.getD (w / 65536 % 16) '0',
   hexChars.getD (w / 4096 % 16) '0', hexChars.getD (w / 256 % 16) '0',
   hexChars.getD (w / 16 % 16) '0', hexChars.getD (w % 16) '0']

/-- SHA-256 hex digest of a byte list (`hashlib.sha256(data).hexdigest()`). -/
def sha256hex (msg : List Nat) : String :=
  let padded := shaPad msg
  let words := bytesToWords padded
  let final := (chunk16 words.length words).foldl shaBlock shaH0
  ⟨(final.map wordToHex).flatten⟩

/-- Fingerprint of `SearchCache._make_key`: the first 16 hex characters of
the SHA-256 digest of the UTF-8 key string. -/
def make_key (query path : String) (kwargs : List (String × PyVal)) : String :=
  (sha256hex (strBytes (key_data query path kwargs))).take 16

/-! The cache data model: `CacheEntry` and `SearchCache`, with the Python
`dict` modelled as an insertion-ordered association list with unique keys. -/

/-- The `CacheEntry` dataclass: `result`, `created_at`, `hits = 0`. -/
structure CacheEntry (A : Type) where
  result : A
  created_at : Int
  hits : Nat
  deriving DecidableEq, Repr

/-- The `SearchCache` state: `max_size`, `ttl_seconds`, and the `_cache`
dict as an insertion-ordered association list. The `asyncio.Lock` has no
sequential content and is not part of the state. -/
structure SearchCache (A : Type) where
  max_size : Int
  ttl_seconds : Int
  cache : List (String × CacheEntry A)
  deriving DecidableEq, Repr

/-- Python `dict.get`: the binding of the first matching key. -/
def lookup {A : Type} : List (String × CacheEntry A) → String → Option (CacheEntry A)
  | [], _ => none
  | (k, e) :: rest, key => if k = key then some e else lookup rest key

/-- Python `del d[key]`: remove the binding of the first matching key,
keeping the order of the rest. -/
def eraseKey {A : Type} : List (String × CacheEntry A) → String → List (String × CacheEntry A)
  | [], _ => []
  | (k, e) :: rest, key => if k = key then rest else (k, e) :: eraseKey rest key

/-- Python `d[key] = v`: replace in place when the key is present (dict
insertion order keeps the original position), otherwise append. -/
def insertEntry {A : Type} :
    List (String × CacheEntry A) → String → CacheEntry A → List (String × CacheEntry A)
  | [], key, e => [(key, e)]
  | (k, e0) :: rest, key, e =>
    if k = key then (key, e) :: rest else (k, e0) :: insertEntry rest key e

/-- Fold of Python `min(keys, key=created_at)`: carry the best
`(key, created_at)` so far, replacing it only on strictly smaller
`created_at` (so the first minimum in iteration order wins). -/
def minPairAux {A : Type} (best : String × Int) :
    List (String × CacheEntry A) → String × Int
  | [] => best
  | (k, e) :: rest =>
    if e.created_at < best.2 then minPairAux (k, e.created_at) rest
    else minPairAux best rest

/-- Key chosen by `SearchCache._evict_oldest`: the first key in dict
iteration order whose entry has the smallest `created_at`; `none` on an
empty dict. -/
def oldestKey {A : Type} : List (String × CacheEntry A) → Option String
  | [] => none
  | (k, e) :: rest => some (minPairAux (k, e.created_at) rest).1

/-- The `SearchCache._evict_oldest` method: no-op on an empty dict, else
delete the entry with the smallest `created_at`. -/
def evictOldest {A : Type} (l : List (String × CacheEntry A)) :
    List (String × CacheEntry A) :=
  match oldestKey l with
  | none => l
  | some k => eraseKey l k

/-- The `SearchCache.get` method: compute the fingerprint; on a missing
key return `none` unchanged; on an expired entry
(`now - created_at > ttl_seconds`) delete it and return `none`; otherwise
increment `hits` in place and return the stored result. -/
def SearchCache.get {A : Type} (c : SearchCache A) (now : Int)
    (query path : String) (kwargs : List (String × PyVal)) :
    Option A × SearchCache A :=
  let key := make_key query path kwargs
  match lookup c.cache key with
  | none => (none, c)
  | some entry =>
    if now - entry.created_at > c.ttl_seconds then
      (none, { c with cache := eraseKey c.cache key })
    else
      let bumped : CacheEntry A := { entry with hits := entry.hits + 1 }
      (some entry.result, { c with cache := insertEntry c.cache key bumped })

/-- The `SearchCache.set` method: compute the fingerprint; if the dict
already holds at least `max_size` entries, call `_evict_oldest`; then
store a fresh entry with `created_at = now` and `hits = 0`. -/
def SearchCache.set {A : Type} (c : SearchCache A) (now : Int)
    (query path : String) (result : A) (kwargs : List (String × PyVal)) :
    SearchCache A :=
  let key := make_key query path kwargs
  let cache1 :=
    if (c.cache.length : Int) ≥ c.max_size then evictOldest c.cache else c.cache
  { c with cache := insertEntry cache1 key ⟨result, now, 0⟩ }

/-- The `SearchCache.clear` method. -/
def SearchCache.clear {A : Type} (c : SearchCache A) : SearchCache A :=
  { c with cache := [] }

/-- Result of the `SearchCache.stats` property. -/
structure Stats where
  entries : Nat
  max_size : Int
  total_hits : Nat
  deriving DecidableEq, Repr

/-- The `SearchCache.stats` property: current cardinality, capacity, and
the sum of `hits` over all currently stored entries. -/
def SearchCache.stats {A : Type} (c : SearchCache A) : Stats :=
  ⟨c.cache.length, c.max_size, (c.cache.map (fun p => p.2.hits)).sum⟩

/-- The `SearchCache.__init__` constructor: empty dict, given bounds (no
validation is performed). -/
def SearchCache.mk0 (A : Type) (max_size ttl_seconds : Int) : SearchCache A :=
  ⟨max_size, ttl_seconds, []⟩

/-- One cache call, for stating invariants over operation sequences. -/
inductive CacheOp (A : Type) where
  | get (now : Int) (query path : String) (kwargs : List (String × PyVal))
  | set (now : Int) (query path : String) (result : A) (kwargs : List (String × PyVal))
  | clear

/-- Apply one cache call to a state. -/
def applyOp {A : Type} (c : SearchCache A) : CacheOp A → SearchCache A
  | .get now q p kw => (c.get now q p kw).2
  | .set now q p r kw => c.set now q p r kw
  | .clear => c.clear

/-- Apply a sequence of cache calls from left to right. -/
def runOps {A : Type} (c : SearchCache A) (ops : List (CacheOp A)) : SearchCache A :=
  ops.foldl applyOp c

/-- Reassign every entry's `hits` (used to state that eviction ignores
`hits`). -/
def mapHits {A : Type} (g : String → CacheEntry A → Nat)
    (l : List (String × CacheEntry A)) : List (String × CacheEntry A) :=
  l.map (fun p => (p.1, ⟨p.2.result, p.2.created_at, g p.1 p.2⟩))

/-! Association-list lemmas (the dict model). -/

theorem lookup_eq_none_iff {A : Type} (l : List (String × CacheEntry A)) (k : String) :
    lookup l k = none ↔ k ∉ l.map Prod.fst := by
  induction l with
  | nil => simp [lookup]
  | cons p rest ih =>
    obtain ⟨k0, e0⟩ := p
    by_cases h : k0 = k
    · subst h
      simp [lookup]
    · have h2 : ¬k = k0 := fun hk => h hk.symm
      simp [lookup, h, ih, h2]

theorem lookup_ne_none_of_mem {A : Type} {l : List (String × CacheEntry A)}
    {k : String} {e : CacheEntry A} (h : (k, e) ∈ l) : lookup l k ≠ none := by
  intro hnone
  exact (lookup_eq_none_iff l k).mp hnone (List.mem_map.mpr ⟨(k, e), h, rfl⟩)

theorem mem_of_lookup_some {A : Type} {l : List (String × CacheEntry A)}
    {k : String} {e : CacheEntry A} (h : lookup l k = some e) : (k, e) ∈ l := by
  induction l with
  | nil => simp [lookup] at h
  | cons p rest ih =>
    obtain ⟨k0, e0⟩ := p
    by_cases hk : k0 = k
    · simp [lookup, hk] at h
      simp [hk, h]
    · simp [lookup, hk] at h
      exact List.mem_cons_of_mem _ (ih h)

theorem lookup_some_of_mem_nodup {A : Type} {l : List (String × CacheEntry A)}
    (hnd : (l.map Prod.fst).Nodup) {k : String} {e : CacheEntry A}
    (h : (k, e) ∈ l) : lookup l k = some e := by
  induction l with
  | nil => simp at h
  | cons p rest ih =>
    obtain ⟨k0, e0⟩ := p
    simp only [List.map_cons, List.nodup_cons] at hnd
    rcases List.mem_cons.mp h with h1 | h1
    · injection h1 with hk he
      subst hk
      subst he
      simp [lookup]
    · have hk : k0 ≠ k := by
        intro hkk
        exact hnd.1 (hkk ▸ List.mem_map.mpr ⟨(k, e), h1, by simp [hkk]⟩)
      simp [lookup, hk, ih hnd.2 h1]

theorem lookup_insertEntry_self {A : Type} (l : List (String × CacheEntry A))
    (k : String) (e : CacheEntry A) : lookup (insertEntry l k e) k = some e := by
  induction l with
  | nil => simp [insertEntry, lookup]
  | cons p rest ih =>
    obtain ⟨k0, e0⟩ := p
    by_cases h : k0 = k <;> simp [insertEntry, lookup, h, ih]

theorem lookup_insertEntry_ne {A : Type} (l : List (String × CacheEntry A))
    (k k' : String) (e : CacheEntry A) (h : k' ≠ k) :
    lookup (insertEntry l k e) k' = lookup l k' := by
  induction l with
  | nil => simp [insertEntry, lookup, h, Ne.symm h]
  | cons p rest ih =>
    obtain ⟨k0, e0⟩ := p
    by_cases h0 : k0 = k
    · subst h0
      simp [insertEntry, lookup, Ne.symm h]
    · by_cases h1 : k0 = k' <;> simp [insertEntry, lookup, h0, h1, h, ih]

theorem lookup_eraseKey_ne {A : Type} (l : List (String × CacheEntry A))
    (k k' : String) (h : k' ≠ k) :
    lookup (eraseKey l k) k' = lookup l k' := by
  induction l with
  | nil => simp [eraseKey]
  | cons p rest ih =>
    obtain ⟨k0, e0⟩ := p
    by_cases h0 : k0 = k
    · subst h0
      simp [eraseKey, lookup, Ne.symm h]
    · by_cases h1 : k0 = k' <;> simp [eraseKey, lookup, h0, h1, h, ih]

theorem lookup_eraseKey_self {A : Type} (l : List (String × CacheEntry A))
    (k : String) (hnd : (l.map Prod.fst).Nodup) :
    lookup (eraseKey l k) k = none := by
  induction l with
  | nil => simp [eraseKey, lookup]
  | cons p rest ih =>
    obtain ⟨k0, e0⟩ := p
    simp only [List.map_cons, List.nodup_cons] at hnd
    by_cases h0 : k0 = k
    · subst h0
      simp only [eraseKey, if_pos rfl]
      rw [lookup_eq_none_iff]
      exact hnd.1
    · simp [eraseKey, lookup, h0, ih hnd.2]

theorem length_insertEntry_mem {A : Type} (l : List (String × CacheEntry A))
    (k : String) (e : CacheEntry A) (h : lookup l k ≠ none) :
    (insertEntry l k e).length = l.length := by
  induction l with
  | nil => simp [lookup] at h
  | cons p rest ih =>
    obtain ⟨k0, e0⟩ := p
    by_cases h0 : k0 = k
    · simp [insertEntry, h0]
    · simp only [lookup, if_neg h0] at h
      simp [insertEntry, h0, ih h]

theorem length_insertEntry_not_mem {A : Type} (l : List (String × CacheEntry A))
    (k : String) (e : CacheEntry A) (h : lookup l k = none) :
    (insertEntry l k e).length = l.length + 1 := by
  induction l with
  | nil => simp [insertEntry]
  | cons p rest ih =>
    obtain ⟨k0, e0⟩ := p
    by_cases h0 : k0 = k
    · simp [lookup, h0] at h
    · simp only [lookup, if_neg h0] at h
      simp [insertEntry, h0, ih h]

theorem length_insertEntry_le {A : Type} (l : List (String × CacheEntry A))
    (k : String) (e : CacheEntry A) :
    (insertEntry l k e).length ≤ l.length + 1 := by
  by_cases h : lookup l k = none
  · exact (length_insertEntry_not_mem l k e h).le
  · rw [length_insertEntry_mem l k e h]
    omega

theorem length_eraseKey_le {A : Type} (l : List (String × CacheEntry A)) (k : String) :
    (eraseKey l k).length ≤ l.length := by
  induction l with
  | nil => simp [eraseKey]
  | cons p rest ih =>
    obtain ⟨k0, e0⟩ := p
    by_cases h0 : k0 = k
    · simp [eraseKey, h0]
    · simp [eraseKey, h0]
      omega

theorem length_eraseKey_mem {A : Type} (l : List (String × CacheEntry A))
    (k : String) (h : lookup l k ≠ none) :
    (eraseKey l k).length + 1 = l.length := by
  induction l with
  | nil => simp [lookup] at h
  | cons p rest ih =>
    obtain ⟨k0, e0⟩ := p
    by_cases h0 : k0 = k
    · simp [eraseKey, h0]
    · simp only [lookup, if_neg h0] at h
      simp [eraseKey, h0, ih h]

/-! Lemmas about `_evict_oldest`: the chosen key is present, carries the
smallest `created_at`, and depends only on keys and timestamps. -/

theorem minPairAux_le_best {A : Type} (l : List (String × CacheEntry A))
    (best : String × Int) : (minPairAux best l).2 ≤ best.2 := by
  induction l generalizing best with
  | nil => simp [minPairAux]
  | cons p rest ih =>
    obtain ⟨k0, e0⟩ := p
    by_cases h : e0.created_at < best.2
    · simp only [minPairAux, if_pos h]
      exact le_trans (ih (k0, e0.created_at)) (le_of_lt h)
    · simp only [minPairAux, if_neg h]
      exact ih best

theorem minPairAux_le_mem {A : Type} (l : List (String × CacheEntry A))
    (best : String × Int) (k : String) (e : CacheEntry A) (h : (k, e) ∈ l) :
    (minPairAux best l).2 ≤ e.created_at := by
  induction l generalizing best with
  | nil => simp at h
  | cons p rest ih =>
    obtain ⟨k0, e0⟩ := p
    rcases List.mem_cons.mp h with h1 | h1
    · injection h1 with hk he
      subst hk
      subst he
      by_cases hlt : e.created_at < best.2
      · simp only [minPairAux, if_pos hlt]
        exact minPairAux_le_best rest (k, e.created_at)
      · simp only [minPairAux, if_neg hlt]
        exact le_trans (minPairAux_le_best rest best) (not_lt.mp hlt)
    · by_cases hlt : e0.created_at < best.2
      · simp only [minPairAux, if_pos hlt]
        exact ih (k0, e0.created_at) h1
      · simp only [minPairAux, if_neg hlt]
        exact ih best h1

theorem minPairAux_eq_best_or_mem {A : Type} (l : List (String × CacheEntry A))
    (best : String × Int) :
    minPairAux best l = best ∨
      ∃ e : CacheEntry A, ((minPairAux best l).1, e) ∈ l ∧
        e.created_at = (minPairAux best l).2 := by
  induction l generalizing best with
  | nil => exact Or.inl rfl
  | cons p rest ih =>
    obtain ⟨k0, e0⟩ := p
    by_cases hlt : e0.created_at < best.2
    · simp only [minPairAux, if_pos hlt]
      rcases ih (k0, e0.created_at) with h1 | h1
      · right
        refine ⟨e0, ?_, ?_⟩
        · rw [h1]
          exact List.mem_cons_self _ _
        · rw [h1]
      · right
        obtain ⟨e, hmem, hca⟩ := h1
        exact ⟨e, List.mem_cons_of_mem _ hmem, hca⟩
    · simp only [minPairAux, if_neg hlt]
      rcases ih best with h1 | h1
      · exact Or.inl h1
      · right
        obtain ⟨e, hmem, hca⟩ := h1
        exact ⟨e, List.mem_cons_of_mem _ hmem, hca⟩

theorem oldestKey_spec {A : Type} (l : List (String × CacheEntry A)) (hne : l ≠ []) :
    ∃ k e, oldestKey l = some k ∧ (k, e) ∈ l ∧
      ∀ k' e', (k', e') ∈ l → e.created_at ≤ e'.created_at := by
  cases l with
  | nil => exact absurd rfl hne
  | cons p rest =>
    obtain ⟨k0, e0⟩ := p
    rcases minPairAux_eq_best_or_mem rest (k0, e0.created_at) with h1 | h1
    · refine ⟨k0, e0, ?_, List.mem_cons_self _ _, ?_⟩
      · simp [oldestKey, h1]
      · intro k' e' hmem
        rcases List.mem_cons.mp hmem with h2 | h2
        · injection h2 with hk he
          subst he
          exact le_refl _
        · have := minPairAux_le_mem rest (k0, e0.created_at) k' e' h2
          rw [h1] at this
          exact this
    · obtain ⟨e, hmem, hca⟩ := h1
      refine ⟨(minPairAux (k0, e0.created_at) rest).1, e, rfl, List.mem_cons_of_mem _ hmem, ?_⟩
      intro k' e' hmem'
      rw [hca]
      rcases List.mem_cons.mp hmem' with h2 | h2
      · injection h2 with hk he
        rw [he]
        exact minPairAux_le_best rest (k0, e0.created_at)
      · exact minPairAux_le_mem rest (k0, e0.created_at) k' e' h2

theorem oldestKey_mem {A : Type} (l : List (String × CacheEntry A)) (k : String)
    (h : oldestKey l = some k) : ∃ e, (k, e) ∈ l := by
  have hne : l ≠ [] := by
    intro hnil
    subst hnil
    simp [oldestKey] at h
  obtain ⟨k1, e1, hk1, hmem, _⟩ := oldestKey_spec l hne
  rw [hk1] at h
  injection h with h2
  exact ⟨e1, h2 ▸ hmem⟩

theorem length_evictOldest {A : Type} (l : List (String × CacheEntry A))
    (hne : l ≠ []) : (evictOldest l).length + 1 = l.length := by
  obtain ⟨k, e, hk, hmem, _⟩ := oldestKey_spec l hne
  rw [evictOldest, hk]
  exact length_eraseKey_mem l k (lookup_ne_none_of_mem hmem)

theorem evictOldest_nil {A : Type} : evictOldest ([] : List (String × CacheEntry A)) = [] := by
  simp [evictOldest, oldestKey]

theorem minPairAux_mapHits {A : Type} (g : String → CacheEntry A → Nat)
    (l : List (String × CacheEntry A)) (best : String × Int) :
    minPairAux best (mapHits g l) = minPairAux best l := by
  induction l generalizing best with
  | nil => simp [mapHits]
  | cons p rest ih =>
    obtain ⟨k0, e0⟩ := p
    by_cases hlt : e0.created_at < best.2 <;>
      simp [mapHits, minPairAux, hlt] <;> exact ih _

/-! Order facts for the fingerprint sort: `charListLt` is a strict total
order on character lists, so sorting a permutation of a list with
duplicate-free names reproduces the same list. -/

theorem char_toNat_inj {a b : Char} (h : a.toNat = b.toNat) : a = b := by
  apply Char.eq_of_val_eq
  apply UInt32.ext
  simpa [Char.toNat] using h

theorem string_data_inj {a b : String} (h : a.data = b.data) : a = b := by
  cases a
  simp only at h
  rw [h]

theorem charListLt_trans : ∀ {a b c : List Char},
    charListLt a b = true → charListLt b c = true → charListLt a c = true
  | [], _ :: _, _ :: _, _, _ => rfl
  | x :: as, y :: bs, z :: cs, h1, h2 => by
    simp only [charListLt] at h1 h2 ⊢
    by_cases hxy : x.toNat < y.toNat <;> by_cases hyz : y.toNat < z.toNat <;>
      by_cases hxz : x.toNat < z.toNat <;>
      simp [hxy, hyz, hxz] at h1 h2 ⊢ <;> try omega
    · obtain ⟨h1a, h1b⟩ := h1
      obtain ⟨h2a, h2b⟩ := h2
      exact ⟨by omega, charListLt_trans h1b h2b⟩

theorem charListLt_antisymm : ∀ {a b : List Char},
    charListLt a b = false → charListLt b a = false → a = b
  | [], [], _, _ => rfl
  | [], _ :: _, h1, _ => by simp [charListLt] at h1
  | _ :: _, [], _, h2 => by simp [charListLt] at h2
  | x :: as, y :: bs, h1, h2 => by
    simp only [charListLt] at h1 h2
    by_cases hxy : x.toNat < y.toNat
    · simp [hxy] at h1
    · by_cases hyx : y.toNat < x.toNat
      · simp [hxy, hyx] at h2
      · simp [hxy, hyx] at h1 h2
        have hx : x = y := char_toNat_inj (by omega)
        rw [hx, charListLt_antisymm h1 h2]

theorem charListLt_irrefl : ∀ (a : List Char), charListLt a a = false
  | [] => rfl
  | x :: as => by simp [charListLt, charListLt_irrefl as]

theorem charListLt_asymm {a b : List Char} (h : charListLt a b = true) :
    charListLt b a = false := by
  by_contra hba
  have hba2 : charListLt b a = true := by
    cases hh : charListLt b a
    · exact absurd hh hba
    · rfl
  have := charListLt_trans h hba2
  rw [charListLt_irrefl a] at this
  exact Bool.false_ne_true this

theorem charListLt_neg_trans {a b c : List Char}
    (h1 : charListLt b a = false) (h2 : charListLt c b = false) :
    charListLt c a = false := by
  cases hca : charListLt c a
  · rfl
  · by_cases hbc : charListLt b c = true
    · have := charListLt_trans hbc hca
      rw [this] at h1
      exact absurd h1 (by simp)
    · have hbc2 : charListLt b c = false := by
        cases hh : charListLt b c
        · rfl
        · exact absurd hh hbc
      have hbceq := charListLt_antisymm hbc2 h2
      rw [← hbceq] at hca
      rw [h1] at hca
      exact absurd hca (by simp)

/-- Placement relation of the kwargs sort: `a` may stand before `b`. -/
def nameLe (a b : String × PyVal) : Prop := nameLt b a = false

theorem nameLe_trans {a b c : String × PyVal} (h1 : nameLe a b) (h2 : nameLe b c) :
    nameLe a c :=
  charListLt_neg_trans h1 h2

theorem nameLe_of_nameLt {a b : String × PyVal} (h : nameLt a b = true) : nameLe a b :=
  charListLt_asymm h

theorem nameLe_of_not_nameLt {a b : String × PyVal} (h : nameLt a b = false) : nameLe b a := h

theorem insertPair_perm (x : String × PyVal) (l : List (String × PyVal)) :
    List.Perm (insertPair x l) (x :: l) := by
  induction l with
  | nil => exact List.Perm.refl _
  | cons y ys ih =>
    by_cases h : nameLt x y = true
    · simp [insertPair, h]
    · have h2 : nameLt x y = false := by
        cases hh : nameLt x y
        · rfl
        · exact absurd hh h
      simp only [insertPair, h2]
      simp only [Bool.false_eq_true, if_false]
      exact List.Perm.trans (List.Perm.cons y ih) (List.Perm.swap x y ys)

theorem pySortKwargs_perm (l : List (String × PyVal)) :
    List.Perm (pySortKwargs l) l := by
  induction l with
  | nil => exact List.Perm.refl _
  | cons x xs ih =>
    exact List.Perm.trans (insertPair_perm x (pySortKwargs xs)) (List.Perm.cons x ih)

theorem insertPair_pairwise (x : String × PyVal) (l : List (String × PyVal))
    (hp : List.Pairwise nameLe l) : List.Pairwise nameLe (insertPair x l) := by
  induction l with
  | nil => simp [insertPair]
  | cons y ys ih =>
    rw [List.pairwise_cons] at hp
    obtain ⟨hy, hys⟩ := hp
    by_cases h : nameLt x y = true
    · simp only [insertPair, h, if_true]
      rw [List.pairwise_cons]
      constructor
      · intro z hz
        rcases List.mem_cons.mp hz with h1 | h1
        · exact h1 ▸ nameLe_of_nameLt h
        · exact nameLe_trans (nameLe_of_nameLt h) (hy z h1)
      · rw [List.pairwise_cons]
        exact ⟨hy, hys⟩
    · have h2 : nameLt x y = false := by
        cases hh : nameLt x y
        · rfl
        · exact absurd hh h
      simp only [insertPair, h2, Bool.false_eq_true, if_false]
      rw [List.pairwise_cons]
      constructor
      · intro z hz
        have hz2 := (insertPair_perm x ys).mem_iff.mp hz
        rcases List.mem_cons.mp hz2 with h1 | h1
        · exact h1 ▸ nameLe_of_not_nameLt h2
        · exact hy z h1
      · exact ih hys

theorem pySortKwargs_pairwise (l : List (String × PyVal)) :
    List.Pairwise nameLe (pySortKwargs l) := by
  induction l with
  | nil => simp [pySortKwargs]
  | cons x xs ih => exact insertPair_pairwise x (pySortKwargs xs) ih

theorem sorted_perm_nodup_eq : ∀ (l1 l2 : List (String × PyVal)),
    List.Perm l1 l2 → List.Pairwise nameLe l1 → List.Pairwise nameLe l2 →
    (l1.map Prod.fst).Nodup → l1 = l2
  | [], l2, hperm, _, _, _ => hperm.nil_eq
  | a :: t1, [], hperm, _, _, _ => by
    have := hperm.length_eq
    simp at this
  | a :: t1, b :: t2, hperm, hp1, hp2, hnd => by
    by_cases hab : a = b
    · subst hab
      have htail := hperm.cons_inv
      rw [List.pairwise_cons] at hp1 hp2
      simp only [List.map_cons, List.nodup_cons] at hnd
      rw [sorted_perm_nodup_eq t1 t2 htail hp1.2 hp2.2 hnd.2]
    · exfalso
      have ha2 : a ∈ t2 := by
        have : a ∈ b :: t2 := hperm.mem_iff.mp (List.mem_cons_self a t1)
        rcases List.mem_cons.mp this with h1 | h1
        · exact absurd h1 hab
        · exact h1
      have hb1 : b ∈ t1 := by
        have : b ∈ a :: t1 := hperm.mem_iff.mpr (List.mem_cons_self b t2)
        rcases List.mem_cons.mp this with h1 | h1
        · exact absurd h1.symm hab
        · exact h1
      rw [List.pairwise_cons] at hp1 hp2
      have hle1 : nameLe a b := hp1.1 b hb1
      have hle2 : nameLe b a := hp2.1 a ha2
      have hname : a.1 = b.1 :=
        string_data_inj (charListLt_antisymm hle2 hle1)
      simp only [List.map_cons, List.nodup_cons] at hnd
      exact hnd.1 (hname ▸ List.mem_map.mpr ⟨b, hb1, rfl⟩)

theorem pySortKwargs_eq_of_perm (kw kw' : List (String × PyVal))
    (hperm : List.Perm kw kw') (hnd : (kw.map Prod.fst).Nodup) :
    pySortKwargs kw = pySortKwargs kw' := by
  apply sorted_perm_nodup_eq
  · exact List.Perm.trans (pySortKwargs_perm kw)
      (List.Perm.trans hperm (pySortKwargs_perm kw').symm)
  · exact pySortKwargs_pairwise kw
  · exact pySortKwargs_pairwise kw'
  · exact (((pySortKwargs_perm kw).map Prod.fst).nodup_iff).mpr hnd

/-! Injectivity of the Python textual serialization that feeds the hash:
needed to show that changing a single field changes the pre-hash string. -/

/-- Decimal decoding, a left inverse of `natDigitsAux`. -/
def digitsVal (l : List Char) : Nat := l.foldl (fun acc c => 10 * acc + (c.toNat - 48)) 0

theorem digitsVal_append_digit (ds : List Char) (c : Char) :
    digitsVal (ds ++ [c]) = 10 * digitsVal ds + (c.toNat - 48) := by
  simp [digitsVal, List.foldl_append]

theorem digitChar_toNat (d : Nat) (h : d < 10) : (digitChar d).toNat = 48 + d := by
  interval_cases d <;> rfl

theorem digitsVal_natDigitsAux : ∀ (fuel n : Nat), n < fuel →
    digitsVal (natDigitsAux fuel n) = n := by
  intro fuel
  induction fuel with
  | zero => intro n h; omega
  | succ fuel ih =>
    intro n h
    by_cases h10 : n < 10
    · simp [natDigitsAux, h10, digitsVal, digitChar_toNat n h10]
    · have hdiv : n / 10 < fuel := by
        have := Nat.div_lt_self (by omega : 0 < n) (by omega : 1 < 10)
        omega
      simp only [natDigitsAux, if_neg h10]
      rw [digitsVal_append_digit, ih (n / 10) hdiv, digitChar_toNat (n % 10) (by omega)]
      omega

theorem natRepr_inj {n m : Nat} (h : natRepr n = natRepr m) : n = m := by
  have hdata : natDigitsAux (n + 1) n = natDigitsAux (m + 1) m := by
    simpa [natRepr] using congrArg String.data h
  have h1 := digitsVal_natDigitsAux (n + 1) n (by omega)
  have h2 := digitsVal_natDigitsAux (m + 1) m (by omega)
  rw [hdata] at h1
  omega

theorem natDigitsAux_head : ∀ (fuel n : Nat), n < fuel →
    ∃ c cs, natDigitsAux fuel n = c :: cs ∧ 48 ≤ c.toNat ∧ c.toNat ≤ 57 := by
  intro fuel
  induction fuel with
  | zero => intro n h; omega
  | succ fuel ih =>
    intro n h
    by_cases h10 : n < 10
    · refine ⟨digitChar n, [], by simp [natDigitsAux, h10], ?_, ?_⟩ <;>
        rw [digitChar_toNat n h10] <;> omega
    · have hdiv : n / 10 < fuel := by
        have := Nat.div_lt_self (by omega : 0 < n) (by omega : 1 < 10)
        omega
      obtain ⟨c, cs, heq, hc1, hc2⟩ := ih (n / 10) hdiv
      exact ⟨c, cs ++ [digitChar (n % 10)], by simp [natDigitsAux, h10, heq], hc1, hc2⟩

theorem intRepr_head (i : Int) :
    ∃ c cs, (intRepr i).data = c :: cs ∧ 45 ≤ c.toNat ∧ c.toNat ≤ 57 := by
  by_cases hi : i < 0
  · obtain ⟨c, cs, heq, hc1, hc2⟩ := natDigitsAux_head ((-i).toNat + 1) (-i).toNat (by omega)
    refine ⟨Char.ofNat 45, (natRepr (-i).toNat).data, ?_, by decide, by decide⟩
    simp [intRepr, if_pos hi, String.data_append]
  · obtain ⟨c, cs, heq, hc1, hc2⟩ := natDigitsAux_head (i.toNat + 1) i.toNat (by omega)
    refine ⟨c, cs, ?_, by omega, hc2⟩
    simp [intRepr, if_neg hi, natRepr, heq]

theorem intRepr_inj {i j : Int} (h : intRepr i = intRepr j) : i = j := by
  by_cases hi : i < 0 <;> by_cases hj : j < 0
  · simp only [intRepr, if_pos hi, if_pos hj] at h
    have hd := congrArg String.data h
    simp only [String.data_append] at hd
    have : (natRepr (-i).toNat).data = (natRepr (-j).toNat).data :=
      List.append_cancel_left hd
    have := natRepr_inj (string_data_inj this)
    omega
  · exfalso
    simp only [intRepr, if_pos hi, if_neg hj] at h
    obtain ⟨c, cs, heq, hc1, hc2⟩ := natDigitsAux_head (j.toNat + 1) j.toNat (by omega)
    have hd := congrArg String.data h
    simp only [String.data_append, natRepr, heq] at hd
    have hhd : Char.ofNat 45 :: (natRepr (-i).toNat).data = c :: cs := by
      simpa [natRepr, heq] using hd
    have := congrArg (fun l => List.headD l (Char.ofNat 0)) hhd
    simp at this
    rw [← this] at hc1
    revert hc1
    decide
  · exfalso
    simp only [intRepr, if_neg hi, if_pos hj] at h
    obtain ⟨c, cs, heq, hc1, hc2⟩ := natDigitsAux_head (i.toNat + 1) i.toNat (by omega)
    have hd := congrArg String.data h
    simp only [String.data_append, natRepr, heq] at hd
    have hhd : c :: cs = Char.ofNat 45 :: (natRepr (-j).toNat).data := by
      simpa [natRepr, heq] using hd
    have := congrArg (fun l => List.headD l (Char.ofNat 0)) hhd
    simp at this
    rw [this] at hc1
    revert hc1
    decide
  · simp only [intRepr, if_neg hi, if_neg hj] at h
    have := natRepr_inj h
    omega

theorem pyReprVal_inj : ∀ {v w : PyVal}, pyReprVal v = pyReprVal w → v = w := by
  intro v w h
  match v, w with
  | .bool true, .bool true => rfl
  | .bool false, .bool false => rfl
  | .bool true, .bool false => simp [pyReprVal] at h
  | .bool false, .bool true => simp [pyReprVal] at h
  | .int i, .int j => exact congrArg PyVal.int (intRepr_inj (by simpa [pyReprVal] using h))
  | .bool b, .int j =>
    exfalso
    obtain ⟨c, cs, heq, hc1, hc2⟩ := intRepr_head j
    have hd := congrArg String.data h
    cases b <;> simp only [pyReprVal] at hd <;> rw [heq] at hd <;>
      have := congrArg (fun l => List.headD l (Char.ofNat 0)) hd <;>
      simp at this <;> rw [← this] at hc1 hc2 <;> revert hc1 hc2 <;> decide
  | .int j, .bool b =>
    exfalso
    obtain ⟨c, cs, heq, hc1, hc2⟩ := intRepr_head j
    have hd := congrArg String.data h
    cases b <;> simp only [pyReprVal] at hd <;> rw [heq] at hd <;>
      have := congrArg (fun l => List.headD l (Char.ofNat 0)) hd <;>
      simp at this <;> rw [this] at hc1 hc2 <;> revert hc1 hc2 <;> decide

/-! String cancellation and decomposition of the serialized key string. -/

theorem str_append_cancel_left {s a b : String} (h : s ++ a = s ++ b) : a = b := by
  apply string_data_inj
  have hd := congrArg String.data h
  simp only [String.data_append] at hd
  exact List.append_cancel_left hd

theorem str_append_cancel_right {a b s : String} (h : a ++ s = b ++ s) : a = b := by
  apply string_data_inj
  have hd := congrArg String.data h
  simp only [String.data_append] at hd
  exact List.append_cancel_right hd

/-- Joined text standing before an element at a given position. -/
def joinPre (sep : String) : List String → String
  | [] => ""
  | x :: xs => x ++ sep ++ joinPre sep xs

/-- Joined text standing after an element at a given position. -/
def joinSuf (sep : String) : List String → String
  | [] => ""
  | z :: zs => sep ++ joinSep sep (z :: zs)

theorem joinSep_cons (sep s : String) (l : List String) (h : l ≠ []) :
    joinSep sep (s :: l) = s ++ sep ++ joinSep sep l := by
  cases l with
  | nil => exact absurd rfl h
  | cons t rest => rfl

theorem joinSep_split (sep : String) : ∀ (xs : List String) (y : String) (ys : List String),
    joinSep sep (xs ++ y :: ys) = joinPre sep xs ++ y ++ joinSuf sep ys := by
  intro xs
  induction xs with
  | nil =>
    intro y ys
    cases ys with
    | nil =>
      apply string_data_inj
      simp [joinSep, joinPre, joinSuf, String.data_append]
    | cons z zs =>
      apply string_data_inj
      simp [joinSep, joinPre, joinSuf, String.data_append, List.append_assoc]
  | cons x xs ih =>
    intro y ys
    rw [List.cons_append, joinSep_cons sep x (xs ++ y :: ys) (by simp), ih y ys]
    apply string_data_inj
    simp [joinPre, String.data_append, List.append_assoc]

theorem pyReprPair_val_inj {n : String} {v v' : PyVal}
    (h : pyReprPair (n, v) = pyReprPair (n, v')) : v = v' := by
  have h2 := str_append_cancel_right (a := "(" ++ String.singleton quoteChar ++ n ++
    String.singleton quoteChar ++ ", " ++ pyReprVal v) (b := "(" ++ String.singleton quoteChar ++
    n ++ String.singleton quoteChar ++ ", " ++ pyReprVal v') (s := ")") h
  exact pyReprVal_inj (str_append_cancel_left h2)

/-- Replace the value bound to name `n` (modelling a kwargs call that
differs in that single named argument). -/
def setVal (n : String) (v : PyVal) (l : List (String × PyVal)) : List (String × PyVal) :=
  l.map (fun p => if p.1 = n then (p.1, v) else p)

theorem setVal_not_mem {n : String} {v : PyVal} {l : List (String × PyVal)}
    (h : n ∉ l.map Prod.fst) : setVal n v l = l := by
  induction l with
  | nil => rfl
  | cons p rest ih =>
    simp only [List.map_cons, List.mem_cons, not_or] at h
    have hp : ¬p.1 = n := fun hh => h.1 hh.symm
    simp only [setVal, List.map_cons] at ih ⊢
    rw [if_neg hp, ih h.2]

theorem insertPair_map_nameKeep (f : String × PyVal → String × PyVal)
    (hf : ∀ p, (f p).1 = p.1) (x : String × PyVal) (l : List (String × PyVal)) :
    insertPair (f x) (l.map f) = (insertPair x l).map f := by
  induction l with
  | nil => rfl
  | cons y ys ih =>
    have hlt : nameLt (f x) (f y) = nameLt x y := by
      simp [nameLt, strLt, hf]
    by_cases h : nameLt x y = true
    · simp [insertPair, hlt, h]
    · have h2 : nameLt x y = false := by
        cases hh : nameLt x y
        · rfl
        · exact absurd hh h
      simp [insertPair, hlt, h2, ih]

theorem pySortKwargs_map_nameKeep (f : String × PyVal → String × PyVal)
    (hf : ∀ p, (f p).1 = p.1) : ∀ (l : List (String × PyVal)),
    pySortKwargs (l.map f) = (pySortKwargs l).map f := by
  intro l
  induction l with
  | nil => rfl
  | cons x xs ih =>
    simp only [List.map_cons, pySortKwargs, ih]
    exact insertPair_map_nameKeep f hf x (pySortKwargs xs)

theorem serializeKwargs_setVal_ne {kw : List (String × PyVal)} {n : String} {v v' : PyVal}
    (hnd : (kw.map Prod.fst).Nodup) (hmem : (n, v) ∈ kw) (hne : v' ≠ v) :
    serializeKwargs (setVal n v' kw) ≠ serializeKwargs kw := by
  intro heq
  apply hne
  have hf : ∀ p : String × PyVal,
      ((fun p : String × PyVal => if p.1 = n then (p.1, v') else p) p).1 = p.1 := by
    intro p
    by_cases h : p.1 = n <;> simp [h]
  have hsort : pySortKwargs (setVal n v' kw) = setVal n v' (pySortKwargs kw) :=
    pySortKwargs_map_nameKeep _ hf kw
  have hmem_s : (n, v) ∈ pySortKwargs kw := (pySortKwargs_perm kw).mem_iff.mpr hmem
  have hnd_s : ((pySortKwargs kw).map Prod.fst).Nodup :=
    (((pySortKwargs_perm kw).map Prod.fst).nodup_iff).mpr hnd
  obtain ⟨pre, post, hsplit⟩ := List.append_of_mem hmem_s
  have hnames : n ∉ pre.map Prod.fst ∧ n ∉ post.map Prod.fst := by
    rw [hsplit] at hnd_s
    simp only [List.map_append, List.map_cons] at hnd_s
    rw [List.nodup_middle, List.nodup_cons] at hnd_s
    have := hnd_s.1
    simp only [List.mem_append] at this
    exact ⟨fun hh => this (Or.inl hh), fun hh => this (Or.inr hh)⟩
  have h1 : setVal n v' pre = pre := setVal_not_mem hnames.1
  have h2 : setVal n v' post = post := setVal_not_mem hnames.2
  have hset : setVal n v' (pySortKwargs kw) = pre ++ (n, v') :: post := by
    rw [hsplit]
    simp only [setVal, List.map_append, List.map_cons] at h1 h2 ⊢
    rw [h1, h2]
    simp
  have e1 : serializeKwargs (setVal n v' kw) =
      pyReprList (pre.map pyReprPair ++ pyReprPair (n, v') :: post.map pyReprPair) := by
    rw [serializeKwargs, hsort, hset]
    simp [List.map_append]
  have e2 : serializeKwargs kw =
      pyReprList (pre.map pyReprPair ++ pyReprPair (n, v) :: post.map pyReprPair) := by
    rw [serializeKwargs, hsplit]
    simp [List.map_append]
  rw [e1, e2] at heq
  have hj := str_append_cancel_left
    (s := "[") (str_append_cancel_right (s := "]") heq)
  rw [joinSep_split, joinSep_split] at hj
  exact pyReprPair_val_inj (str_append_cancel_left (str_append_cancel_right hj))

/-! Claim theorems. -/

/-- C6: the fingerprint function is deterministic — repeated calls on the
same `(query, path, extra_params)` yield the same key — and
order-independent in `extra_params`: two calls whose kwargs hold the same
name-value pairs in any order (names unique, as Python dict keys are)
produce the same fingerprint. -/
theorem C6_fingerprint_deterministic_order_independent
    (q p : String) (kw kw' : List (String × PyVal))
    (hperm : List.Perm kw kw') (hnd : (kw.map Prod.fst).Nodup) :
    make_key q p kw = make_key q p kw ∧ make_key q p kw = make_key q p kw' := by
  refine ⟨rfl, ?_⟩
  unfold make_key key_data serializeKwargs
  rw [pySortKwargs_eq_of_perm kw kw' hperm hnd]

/-- Witness for C6 at the spec's own example `{fuzzy: true, max_results: 5}`
in both insertion orders. -/
theorem C6_witness :
    (List.Perm [("fuzzy", PyVal.bool true), ("max_results", PyVal.int 5)]
      [("max_results", PyVal.int 5), ("fuzzy", PyVal.bool true)] ∧
      (([("fuzzy", PyVal.bool true), ("max_results", PyVal.int 5)]).map Prod.fst).Nodup) ∧
    make_key "q" "/path" [("fuzzy", PyVal.bool true), ("max_results", PyVal.int 5)] =
      make_key "q" "/path" [("max_results", PyVal.int 5), ("fuzzy", PyVal.bool true)] :=
  ⟨⟨by decide, by decide⟩,
    (C6_fingerprint_deterministic_order_independent "q" "/path" _ _
      (by decide) (by decide)).2⟩

/-- C2 counterexample: the inputs `("a:b", "c", {})` and `("a", "b:c", {})`
differ in two fields yet produce the identical pre-hash key string
`a:b:c:[]`, hence the identical fingerprint — a deterministic collision of
the `:`-joined serialization, not a SHA-256 collision. -/
theorem C2_counterexample :
    ("a:b", "c") ≠ ("a", "b:c") ∧
    key_data "a:b" "c" [] = key_data "a" "b:c" [] ∧
    make_key "a:b" "c" [] = make_key "a" "b:c" [] := by
  refine ⟨by decide, by decide, ?_⟩
  unfold make_key
  rw [(by decide : key_data "a:b" "c" [] = key_data "a" "b:c" [])]

/-- C2 (amended): changing `query` alone, `path` alone, or the value of one
named `extra_params` entry (others fixed, names unique) always changes the
pre-hash key string, so the fingerprint then changes unless the truncated
SHA-256 digests of two different key strings collide (equal key strings
always give equal fingerprints, last conjunct); but inputs differing in
more than one field can collide deterministically (`C2_counterexample`). -/
theorem C2_amended_single_field_sensitivity :
    (∀ q q' p kw, q ≠ q' → key_data q p kw ≠ key_data q' p kw) ∧
    (∀ q p p' kw, p ≠ p' → key_data q p kw ≠ key_data q p' kw) ∧
    (∀ q p kw n v v', (kw.map Prod.fst).Nodup → (n, v) ∈ kw → v' ≠ v →
      key_data q p (setVal n v' kw) ≠ key_data q p kw) ∧
    (∀ q q' p p' kw kw', key_data q p kw = key_data q' p' kw' →
      make_key q p kw = make_key q' p' kw') := by
  refine ⟨?_, ?_, ?_, ?_⟩
  · intro q q' p kw hq heq
    apply hq
    have hd := congrArg String.data heq
    simp only [key_data, String.data_append] at hd
    exact string_data_inj (List.append_cancel_right (List.append_cancel_right
      (List.append_cancel_right (List.append_cancel_right hd))))
  · intro q p p' kw hp heq
    apply hp
    have hd := congrArg String.data heq
    simp only [key_data, String.data_append] at hd
    exact string_data_inj (List.append_cancel_left (List.append_cancel_right
      (List.append_cancel_right hd)))
  · intro q p kw n v v' hnd hmem hne heq
    apply serializeKwargs_setVal_ne hnd hmem hne
    have hd := congrArg String.data heq
    simp only [key_data, String.data_append] at hd
    exact string_data_inj (List.append_cancel_left hd)
  · intro q q' p p' kw kw' heq
    unfold make_key
    rw [heq]

/-- Witness for the amended C2: each single-field change at a concrete
input, with every hypothesis discharged. -/
theorem C2_amended_witness :
    ("q1" ≠ "q2" ∧ key_data "q1" "/p" [] ≠ key_data "q2" "/p" []) ∧
    ("/p1" ≠ "/p2" ∧ key_data "q" "/p1" [] ≠ key_data "q" "/p2" []) ∧
    ((([("fuzzy", PyVal.bool true)]).map Prod.fst).Nodup ∧
      ("fuzzy", PyVal.bool true) ∈ [("fuzzy", PyVal.bool true)] ∧
      PyVal.bool false ≠ PyVal.bool true ∧
      key_data "q" "/p" (setVal "fuzzy" (PyVal.bool false) [("fuzzy", PyVal.bool true)]) ≠
        key_data "q" "/p" [("fuzzy", PyVal.bool true)]) :=
  ⟨⟨by decide, C2_amended_single_field_sensitivity.1 "q1" "q2" "/p" [] (by decide)⟩,
   ⟨by decide, C2_amended_single_field_sensitivity.2.1 "q" "/p1" "/p2" [] (by decide)⟩,
   ⟨by decide, by decide, by decide,
     C2_amended_single_field_sensitivity.2.2.1 "q" "/p" [("fuzzy", PyVal.bool true)]
       "fuzzy" (PyVal.bool true) (PyVal.bool false) (by decide) (by decide) (by decide)⟩⟩

/-- C3: `get` behaves by cases on the looked-up fingerprint: absent — no
result, cache unchanged; present and expired (`now - created_at >
ttl_seconds`) — that entry removed, no result; present and fresh — `hits`
incremented by exactly one, stored result returned unchanged. -/
theorem C3_get_specification {A : Type} (c : SearchCache A) (now : Int)
    (q p : String) (kw : List (String × PyVal)) :
    (lookup c.cache (make_key q p kw) = none → c.get now q p kw = (none, c)) ∧
    (∀ e, lookup c.cache (make_key q p kw) = some e →
      now - e.created_at > c.ttl_seconds →
      c.get now q p kw = (none, { c with cache := eraseKey c.cache (make_key q p kw) })) ∧
    (∀ e, lookup c.cache (make_key q p kw) = some e →
      ¬(now - e.created_at > c.ttl_seconds) →
      (c.get now q p kw).1 = some e.result ∧
      lookup (c.get now q p kw).2.cache (make_key q p kw) =
        some ⟨e.result, e.created_at, e.hits + 1⟩) := by
  refine ⟨?_, ?_, ?_⟩
  · intro hnone
    simp [SearchCache.get, hnone]
  · intro e hsome hexp
    simp [SearchCache.get, hsome, if_pos hexp]
  · intro e hsome hfresh
    constructor
    · simp [SearchCache.get, hsome, if_neg hfresh]
    · simp only [SearchCache.get, hsome, if_neg hfresh]
      exact lookup_insertEntry_self c.cache (make_key q p kw) _

/-- Witness for C3: one-entry caches exercising all three branches (in the
concrete states the stored key is the fingerprint itself, so no hash needs
evaluating). -/
theorem C3_witness :
    (lookup (SearchCache.mk0 Nat 10 60).cache (make_key "q" "/p" []) = none ∧
      (SearchCache.mk0 Nat 10 60).get 0 "q" "/p" [] = (none, SearchCache.mk0 Nat 10 60)) ∧
    (lookup (⟨10, 60, [(make_key "q" "/p" [], ⟨7, 0, 3⟩)]⟩ : SearchCache Nat).cache
        (make_key "q" "/p" []) = some ⟨7, 0, 3⟩ ∧ (61 : Int) - 0 > 60 ∧
      (⟨10, 60, [(make_key "q" "/p" [], ⟨7, 0, 3⟩)]⟩ : SearchCache Nat).get 61 "q" "/p" [] =
        (none, ⟨10, 60, []⟩)) ∧
    (lookup (⟨10, 60, [(make_key "q" "/p" [], ⟨7, 0, 3⟩)]⟩ : SearchCache Nat).cache
        (make_key "q" "/p" []) = some ⟨7, 0, 3⟩ ∧ ¬((5 : Int) - 0 > 60) ∧
      ((⟨10, 60, [(make_key "q" "/p" [], ⟨7, 0, 3⟩)]⟩ : SearchCache Nat).get 5 "q" "/p" []).1 =
        some 7 ∧
      lookup ((⟨10, 60, [(make_key "q" "/p" [], ⟨7, 0, 3⟩)]⟩ : SearchCache Nat).get
        5 "q" "/p" []).2.cache (make_key "q" "/p" []) = some ⟨7, 0, 4⟩) := by
  have hnone : lookup (SearchCache.mk0 Nat 10 60).cache (make_key "q" "/p" []) = none := by
    simp [SearchCache.mk0, lookup]
  have hsome : lookup (⟨10, 60, [(make_key "q" "/p" [], ⟨7, 0, 3⟩)]⟩ : SearchCache Nat).cache
      (make_key "q" "/p" []) = some ⟨7, 0, 3⟩ := by
    simp [lookup]
  refine ⟨⟨hnone, (C3_get_specification _ 0 "q" "/p" []).1 hnone⟩,
    ⟨hsome, by omega, ?_⟩, ⟨hsome, by omega, ?_, ?_⟩⟩
  · have h2 := (C3_get_specification (⟨10, 60, [(make_key "q" "/p" [], ⟨7, 0, 3⟩)]⟩ :
      SearchCache Nat) 61 "q" "/p" []).2.1 ⟨7, 0, 3⟩ hsome (by decide)
    rw [h2]
    simp [eraseKey]
  · exact ((C3_get_specification (⟨10, 60, [(make_key "q" "/p" [], ⟨7, 0, 3⟩)]⟩ :
      SearchCache Nat) 5 "q" "/p" []).2.2 ⟨7, 0, 3⟩ hsome (by decide)).1
  · exact ((C3_get_specification (⟨10, 60, [(make_key "q" "/p" [], ⟨7, 0, 3⟩)]⟩ :
      SearchCache Nat) 5 "q" "/p" []).2.2 ⟨7, 0, 3⟩ hsome (by decide)).2

/-- C9: a `get` that misses leaves the whole cache unchanged, and a `get`
that removes an expired entry removes only the looked-up fingerprint:
every other entry keeps its binding (result, created_at, hits) unchanged. -/
theorem C9_get_frame {A : Type} (c : SearchCache A) (now : Int)
    (q p : String) (kw : List (String × PyVal))
    (hnd : (c.cache.map Prod.fst).Nodup) :
    (lookup c.cache (make_key q p kw) = none → (c.get now q p kw).2 = c) ∧
    (∀ e, lookup c.cache (make_key q p kw) = some e →
      now - e.created_at > c.ttl_seconds →
      lookup (c.get now q p kw).2.cache (make_key q p kw) = none ∧
      (∀ k, k ≠ make_key q p kw →
        lookup (c.get now q p kw).2.cache k = lookup c.cache k) ∧
      (c.get now q p kw).2.cache.length + 1 = c.cache.length) := by
  refine ⟨?_, ?_⟩
  · intro hnone
    simp [SearchCache.get, hnone]
  · intro e hsome hexp
    have hc : (c.get now q p kw).2.cache = eraseKey c.cache (make_key q p kw) := by
      simp [SearchCache.get, hsome, if_pos hexp]
    refine ⟨?_, ?_, ?_⟩
    · rw [hc]
      exact lookup_eraseKey_self c.cache (make_key q p kw) hnd
    · intro k hk
      rw [hc]
      exact lookup_eraseKey_ne c.cache (make_key q p kw) k hk
    · rw [hc]
      exact length_eraseKey_mem c.cache (make_key q p kw) (by rw [hsome]; simp)

/-- Witness for C9 on a concrete one-entry cache holding an expired entry. -/
theorem C9_witness :
    ((([(make_key "q" "/p" [], (⟨7, 0, 3⟩ : CacheEntry Nat))]).map Prod.fst).Nodup ∧
      lookup (⟨10, 60, [(make_key "q" "/p" [], ⟨7, 0, 3⟩)]⟩ : SearchCache Nat).cache
        (make_key "q" "/p" []) = some ⟨7, 0, 3⟩ ∧ (61 : Int) - 0 > 60) ∧
    lookup ((⟨10, 60, [(make_key "q" "/p" [], ⟨7, 0, 3⟩)]⟩ : SearchCache Nat).get
      61 "q" "/p" []).2.cache (make_key "q" "/p" []) = none ∧
    ((⟨10, 60, [(make_key "q" "/p" [], ⟨7, 0, 3⟩)]⟩ : SearchCache Nat).get
      61 "q" "/p" []).2.cache.length + 1 = 1 := by
  have hnd : (([(make_key "q" "/p" [], (⟨7, 0, 3⟩ : CacheEntry Nat))]).map Prod.fst).Nodup := by
    simp
  have hsome : lookup (⟨10, 60, [(make_key "q" "/p" [], ⟨7, 0, 3⟩)]⟩ : SearchCache Nat).cache
      (make_key "q" "/p" []) = some ⟨7, 0, 3⟩ := by
    simp [lookup]
  have h := (C9_get_frame (⟨10, 60, [(make_key "q" "/p" [], ⟨7, 0, 3⟩)]⟩ : SearchCache Nat)
    61 "q" "/p" [] hnd).2 ⟨7, 0, 3⟩ hsome (by decide)
  exact ⟨⟨hnd, hsome, by decide⟩, h.1, h.2.2⟩

theorem hits_sum_eraseKey {A : Type} (l : List (String × CacheEntry A)) (k : String)
    (e : CacheEntry A) (h : lookup l k = some e) :
    ((eraseKey l k).map (fun pr => pr.2.hits)).sum + e.hits =
      (l.map (fun pr => pr.2.hits)).sum := by
  induction l with
  | nil => simp [lookup] at h
  | cons p0 rest ih =>
    obtain ⟨k0, e0⟩ := p0
    by_cases h0 : k0 = k
    · simp [lookup, h0] at h
      subst h
      simp [eraseKey, h0]
      omega
    · simp only [lookup, if_neg h0] at h
      simp only [eraseKey, if_neg h0, List.map_cons, List.sum_cons]
      have := ih h
      omega

/-- C7: `stats` reports the current cardinality and the sum of `hits` over
all currently stored entries — an entry that is expired but not yet purged
still contributes, and once a `get` purges it, its `hits` and its slot stop
counting. -/
theorem C7_stats_snapshot {A : Type} (c : SearchCache A) :
    c.stats.entries = c.cache.length ∧
    c.stats.max_size = c.max_size ∧
    c.stats.total_hits = (c.cache.map (fun pr => pr.2.hits)).sum ∧
    (∀ now q p kw e, lookup c.cache (make_key q p kw) = some e →
      now - e.created_at > c.ttl_seconds →
      ((c.get now q p kw).2.stats.total_hits + e.hits = c.stats.total_hits ∧
       (c.get now q p kw).2.stats.entries + 1 = c.stats.entries)) := by
  refine ⟨rfl, rfl, rfl, ?_⟩
  intro now q p kw e hsome hexp
  have hc : (c.get now q p kw).2.cache = eraseKey c.cache (make_key q p kw) := by
    simp [SearchCache.get, hsome, if_pos hexp]
  constructor
  · show ((c.get now q p kw).2.cache.map (fun pr => pr.2.hits)).sum + e.hits =
      (c.cache.map (fun pr => pr.2.hits)).sum
    rw [hc]
    exact hits_sum_eraseKey c.cache (make_key q p kw) e hsome
  · show (c.get now q p kw).2.cache.length + 1 = c.cache.length
    rw [hc]
    exact length_eraseKey_mem c.cache (make_key q p kw) (by rw [hsome]; simp)

set_option maxRecDepth 10000 in
/-- Witness for C7 on a concrete cache: an expired entry still counts three
hits until the `get` that purges it. -/
theorem C7_witness :
    (⟨10, 60, [(make_key "q" "/p" [], (⟨7, 0, 3⟩ : CacheEntry Nat))]⟩ :
      SearchCache Nat).stats.total_hits = 3 ∧
    (lookup (⟨10, 60, [(make_key "q" "/p" [], ⟨7, 0, 3⟩)]⟩ : SearchCache Nat).cache
      (make_key "q" "/p" []) = some ⟨7, 0, 3⟩ ∧ (61 : Int) - 0 > 60) ∧
    ((⟨10, 60, [(make_key "q" "/p" [], ⟨7, 0, 3⟩)]⟩ : SearchCache Nat).get
      61 "q" "/p" []).2.stats.total_hits + 3 = 3 ∧
    ((⟨10, 60, [(make_key "q" "/p" [], ⟨7, 0, 3⟩)]⟩ : SearchCache Nat).get
      61 "q" "/p" []).2.stats.entries + 1 = 1 := by
  have hsome : lookup (⟨10, 60, [(make_key "q" "/p" [], ⟨7, 0, 3⟩)]⟩ : SearchCache Nat).cache
      (make_key "q" "/p" []) = some ⟨7, 0, 3⟩ := by
    simp [lookup]
  have h := (C7_stats_snapshot (⟨10, 60, [(make_key "q" "/p" [], ⟨7, 0, 3⟩)]⟩ :
    SearchCache Nat)).2.2.2 61 "q" "/p" [] ⟨7, 0, 3⟩ hsome (by decide)
  exact ⟨rfl, ⟨hsome, by decide⟩, h.1, h.2⟩

theorem oldestKey_mapHits {A : Type} (g : String → CacheEntry A → Nat)
    (l : List (String × CacheEntry A)) : oldestKey (mapHits g l) = oldestKey l := by
  cases l with
  | nil => rfl
  | cons p rest =>
    obtain ⟨k0, e0⟩ := p
    simp only [mapHits, List.map_cons, oldestKey]
    have h := minPairAux_mapHits g rest (k0, e0.created_at)
    simp only [mapHits] at h
    rw [h]

/-- C4 counterexample: with `max_size = 0` and an empty map the capacity
condition `len(cache) >= max_size` holds before the insertion, yet no entry
is evicted — `_evict_oldest` returns early on the empty dict and the
cardinality grows from 0 to 1, while the claim requires exactly one entry
to be evicted first. -/
theorem C4_counterexample :
    ((SearchCache.mk0 Nat 0 60).cache.length : Int) ≥ (SearchCache.mk0 Nat 0 60).max_size ∧
    ((SearchCache.mk0 Nat 0 60).set 0 "q" "/p" 7 []).cache.length =
      (SearchCache.mk0 Nat 0 60).cache.length + 1 := by
  constructor
  · decide
  · rfl

/-- C4 (amended): on a `set` whose cache already holds `max_size` or more
entries AND whose map is nonempty (which is guaranteed whenever
`max_size ≥ 1`), exactly one entry is evicted first — one carrying the
smallest `created_at` among all current entries, the first such in
insertion order — and the entries' `hits` never influence the choice; on
an empty map (possible only when `max_size ≤ 0`) eviction is a no-op. -/
theorem C4_amended_eviction_policy {A : Type} (c : SearchCache A) (now : Int)
    (q p : String) (r : A) (kw : List (String × PyVal))
    (hnd : (c.cache.map Prod.fst).Nodup)
    (hge : (c.cache.length : Int) ≥ c.max_size) (hne : c.cache ≠ []) :
    ∃ k e, lookup c.cache k = some e ∧
      (∀ k' e', (k', e') ∈ c.cache → e.created_at ≤ e'.created_at) ∧
      (c.set now q p r kw).cache =
        insertEntry (eraseKey c.cache k) (make_key q p kw) ⟨r, now, 0⟩ ∧
      (eraseKey c.cache k).length + 1 = c.cache.length ∧
      (∀ g, oldestKey (mapHits g c.cache) = oldestKey c.cache) := by
  obtain ⟨k, e, hk, hmem, hmin⟩ := oldestKey_spec c.cache hne
  refine ⟨k, e, lookup_some_of_mem_nodup hnd hmem, hmin, ?_, ?_, ?_⟩
  · simp [SearchCache.set, if_pos hge, evictOldest, hk]
  · exact length_eraseKey_mem c.cache k (lookup_ne_none_of_mem hmem)
  · intro g
    exact oldestKey_mapHits g c.cache

/-- Witness for the amended C4 on a concrete full one-entry cache. -/
theorem C4_amended_witness :
    ((([(make_key "q" "/p" [], (⟨7, 0, 3⟩ : CacheEntry Nat))]).map Prod.fst).Nodup ∧
      (((⟨1, 60, [(make_key "q" "/p" [], ⟨7, 0, 3⟩)]⟩ : SearchCache Nat)).cache.length : Int) ≥ 1 ∧
      ((⟨1, 60, [(make_key "q" "/p" [], ⟨7, 0, 3⟩)]⟩ : SearchCache Nat)).cache ≠ []) ∧
    (∃ k e, lookup ((⟨1, 60, [(make_key "q" "/p" [], ⟨7, 0, 3⟩)]⟩ : SearchCache Nat)).cache k =
        some e ∧
      (∀ k' e', (k', e') ∈ ((⟨1, 60, [(make_key "q" "/p" [], ⟨7, 0, 3⟩)]⟩ :
        SearchCache Nat)).cache → e.created_at ≤ e'.created_at) ∧
      ((⟨1, 60, [(make_key "q" "/p" [], ⟨7, 0, 3⟩)]⟩ : SearchCache Nat).set
          5 "q2" "/p2" 9 []).cache =
        insertEntry (eraseKey ((⟨1, 60, [(make_key "q" "/p" [], ⟨7, 0, 3⟩)]⟩ :
          SearchCache Nat)).cache k) (make_key "q2" "/p2" []) ⟨9, 5, 0⟩ ∧
      (eraseKey ((⟨1, 60, [(make_key "q" "/p" [], ⟨7, 0, 3⟩)]⟩ :
        SearchCache Nat)).cache k).length + 1 = 1 ∧
      (∀ g, oldestKey (mapHits g ((⟨1, 60, [(make_key "q" "/p" [], ⟨7, 0, 3⟩)]⟩ :
        SearchCache Nat)).cache) = oldestKey ((⟨1, 60, [(make_key "q" "/p" [], ⟨7, 0, 3⟩)]⟩ :
        SearchCache Nat)).cache)) :=
  ⟨⟨by simp, by decide, by simp⟩,
    C4_amended_eviction_policy (⟨1, 60, [(make_key "q" "/p" [], ⟨7, 0, 3⟩)]⟩ : SearchCache Nat)
      5 "q2" "/p2" 9 [] (by simp) (by decide) (by simp)⟩

theorem length_insertEntry_ge {A : Type} (l : List (String × CacheEntry A))
    (k : String) (e : CacheEntry A) : l.length ≤ (insertEntry l k e).length := by
  by_cases h : lookup l k = none
  · rw [length_insertEntry_not_mem l k e h]
    omega
  · rw [length_insertEntry_mem l k e h]

theorem get_snd_max_size {A : Type} (c : SearchCache A) (now : Int)
    (q p : String) (kw : List (String × PyVal)) :
    (c.get now q p kw).2.max_size = c.max_size := by
  simp only [SearchCache.get]
  cases hl : lookup c.cache (make_key q p kw) with
  | none => rfl
  | some e =>
    by_cases h : now - e.created_at > c.ttl_seconds
    · simp [h]
    · simp [h]

theorem get_snd_length_le {A : Type} (c : SearchCache A) (now : Int)
    (q p : String) (kw : List (String × PyVal)) :
    (c.get now q p kw).2.cache.length ≤ c.cache.length := by
  cases hl : lookup c.cache (make_key q p kw) with
  | none =>
    have hc : (c.get now q p kw).2 = c := by simp [SearchCache.get, hl]
    rw [hc]
  | some e =>
    by_cases h : now - e.created_at > c.ttl_seconds
    · have hc : (c.get now q p kw).2.cache = eraseKey c.cache (make_key q p kw) := by
        simp [SearchCache.get, hl, if_pos h]
      rw [hc]
      exact length_eraseKey_le c.cache _
    · have hc : (c.get now q p kw).2.cache = insertEntry c.cache (make_key q p kw)
          ⟨e.result, e.created_at, e.hits + 1⟩ := by
        simp [SearchCache.get, hl, if_neg h]
      rw [hc, length_insertEntry_mem c.cache (make_key q p kw) _ (by rw [hl]; simp)]

theorem set_max_size {A : Type} (c : SearchCache A) (now : Int)
    (q p : String) (r : A) (kw : List (String × PyVal)) :
    (c.set now q p r kw).max_size = c.max_size := rfl

theorem set_length_bound {A : Type} (c : SearchCache A) (now : Int)
    (q p : String) (r : A) (kw : List (String × PyVal))
    (hpos : 0 < c.max_size) (hinv : (c.cache.length : Int) ≤ c.max_size) :
    ((c.set now q p r kw).cache.length : Int) ≤ c.max_size := by
  by_cases hge : (c.cache.length : Int) ≥ c.max_size
  · have hne : c.cache ≠ [] := by
      intro hh
      rw [hh] at hge
      simp at hge
      omega
    have hev := length_evictOldest c.cache hne
    have hins := length_insertEntry_le (evictOldest c.cache) (make_key q p kw) ⟨r, now, 0⟩
    have hcache : (c.set now q p r kw).cache =
        insertEntry (evictOldest c.cache) (make_key q p kw) ⟨r, now, 0⟩ := by
      simp [SearchCache.set, if_pos hge]
    rw [hcache]
    omega
  · have hins := length_insertEntry_le c.cache (make_key q p kw) ⟨r, now, 0⟩
    have hcache : (c.set now q p r kw).cache =
        insertEntry c.cache (make_key q p kw) ⟨r, now, 0⟩ := by
      simp [SearchCache.set, if_neg hge]
    rw [hcache]
    omega

theorem applyOp_max_size {A : Type} (c : SearchCache A) (op : CacheOp A) :
    (applyOp c op).max_size = c.max_size := by
  cases op with
  | get now q p kw => exact get_snd_max_size c now q p kw
  | set now q p r kw => rfl
  | clear => rfl

theorem applyOp_invariant {A : Type} (c : SearchCache A) (op : CacheOp A)
    (hpos : 0 < c.max_size) (hinv : (c.cache.length : Int) ≤ c.max_size) :
    ((applyOp c op).cache.length : Int) ≤ c.max_size := by
  cases op with
  | get now q p kw =>
    have := get_snd_length_le c now q p kw
    simp only [applyOp]
    omega
  | set now q p r kw => exact set_length_bound c now q p r kw hpos hinv
  | clear => simp [applyOp, SearchCache.clear]; omega

/-- C5: starting from a cache constructed with positive `max_size`, the
bound `cardinality ≤ max_size` holds after every completed `get`, `set`,
or `clear`, over every sequence of such operations. -/
theorem C5_capacity_invariant {A : Type} (ms ttl : Int) (hpos : 0 < ms)
    (ops : List (CacheOp A)) :
    ((runOps (SearchCache.mk0 A ms ttl) ops).cache.length : Int) ≤ ms := by
  suffices h : ∀ (c : SearchCache A), c.max_size = ms →
      (c.cache.length : Int) ≤ ms → ((runOps c ops).cache.length : Int) ≤ ms by
    exact h (SearchCache.mk0 A ms ttl) rfl (by simp [SearchCache.mk0]; omega)
  induction ops with
  | nil =>
    intro c hcm hinv
    exact hinv
  | cons op rest ih =>
    intro c hcm hinv
    have hstep : ((applyOp c op).cache.length : Int) ≤ ms := by
      have := applyOp_invariant c op (by omega) (by omega)
      omega
    exact ih (applyOp c op) (by rw [applyOp_max_size, hcm]) hstep

/-- Witness for C5 on a concrete operation sequence that fills a two-slot
cache past capacity and reads it back. -/
theorem C5_witness :
    (0 : Int) < 2 ∧
    ((runOps (SearchCache.mk0 Nat 2 60)
      [CacheOp.set 0 "q0" "/p0" 7 [], CacheOp.set 1 "q1" "/p1" 8 [],
       CacheOp.set 2 "q2" "/p2" 9 [], CacheOp.get 3 "q2" "/p2" [],
       CacheOp.clear, CacheOp.set 4 "q3" "/p3" 1 []]).cache.length : Int) ≤ 2 :=
  ⟨by decide, C5_capacity_invariant 2 60 (by decide) _⟩

set_option maxRecDepth 100000 in
/-- C1 counterexample: a two-slot cache at capacity holds fingerprints of
`("q0","p0")` (created at 0) and `("q1","p1")` (created at 1); calling `set`
for `("q1","p1")` — whose fingerprint is already present — nevertheless
runs the capacity check, evicting the other entry: afterwards the
fingerprint of `("q0","p0")` is gone and only one entry remains, where the
claim promises no eviction and unchanged cardinality 2. -/
theorem C1_counterexample :
    lookup (⟨2, 60, [(make_key "q0" "p0" [], ⟨7, 0, 0⟩), (make_key "q1" "p1" [], ⟨8, 1, 0⟩)]⟩ :
        SearchCache Nat).cache (make_key "q1" "p1" []) ≠ none ∧
    ((⟨2, 60, [(make_key "q0" "p0" [], ⟨7, 0, 0⟩), (make_key "q1" "p1" [], ⟨8, 1, 0⟩)]⟩ :
        SearchCache Nat).cache.length : Int) =
      (⟨2, 60, [(make_key "q0" "p0" [], ⟨7, 0, 0⟩), (make_key "q1" "p1" [], ⟨8, 1, 0⟩)]⟩ :
        SearchCache Nat).max_size ∧
    lookup ((⟨2, 60, [(make_key "q0" "p0" [], ⟨7, 0, 0⟩), (make_key "q1" "p1" [], ⟨8, 1, 0⟩)]⟩ :
        SearchCache Nat).set 2 "q1" "p1" 9 []).cache (make_key "q0" "p0" []) = none ∧
    ((⟨2, 60, [(make_key "q0" "p0" [], ⟨7, 0, 0⟩), (make_key "q1" "p1" [], ⟨8, 1, 0⟩)]⟩ :
        SearchCache Nat).set 2 "q1" "p1" 9 []).cache.length = 1 := by
  refine ⟨by decide, by decide, by decide, by decide⟩

/-- C1 (amended): `set` on an already-present fingerprint always installs a
fresh entry with `created_at = now`, `hits = 0`; when the cardinality is
below `max_size` it evicts nothing — every other fingerprint keeps its
binding and the cardinality is unchanged — but when the cardinality is at
or above `max_size` the capacity check still fires first and the oldest
entry (which may be a different fingerprint) is evicted. -/
theorem C1_amended_overwrite {A : Type} (c : SearchCache A) (now : Int)
    (q p : String) (r : A) (kw : List (String × PyVal))
    (hnd : (c.cache.map Prod.fst).Nodup) :
    lookup (c.set now q p r kw).cache (make_key q p kw) = some ⟨r, now, 0⟩ ∧
    ((c.cache.length : Int) < c.max_size →
      (∀ k, k ≠ make_key q p kw →
        lookup (c.set now q p r kw).cache k = lookup c.cache k) ∧
      (lookup c.cache (make_key q p kw) ≠ none →
        (c.set now q p r kw).cache.length = c.cache.length)) ∧
    ((c.cache.length : Int) ≥ c.max_size → c.cache ≠ [] →
      ∃ k0, oldestKey c.cache = some k0 ∧
        (k0 ≠ make_key q p kw → lookup (c.set now q p r kw).cache k0 = none)) := by
  refine ⟨?_, ?_, ?_⟩
  · by_cases hge : (c.cache.length : Int) ≥ c.max_size
    · have hc : (c.set now q p r kw).cache =
          insertEntry (evictOldest c.cache) (make_key q p kw) ⟨r, now, 0⟩ := by
        simp [SearchCache.set, if_pos hge]
      rw [hc]
      exact lookup_insertEntry_self _ _ _
    · have hc : (c.set now q p r kw).cache =
          insertEntry c.cache (make_key q p kw) ⟨r, now, 0⟩ := by
        simp [SearchCache.set, if_neg hge]
      rw [hc]
      exact lookup_insertEntry_self _ _ _
  · intro hlt
    have hge : ¬((c.cache.length : Int) ≥ c.max_size) := by omega
    have hc : (c.set now q p r kw).cache =
        insertEntry c.cache (make_key q p kw) ⟨r, now, 0⟩ := by
      simp [SearchCache.set, if_neg hge]
    refine ⟨?_, ?_⟩
    · intro k hk
      rw [hc]
      exact lookup_insertEntry_ne c.cache (make_key q p kw) k ⟨r, now, 0⟩ hk
    · intro hpresent
      rw [hc]
      exact length_insertEntry_mem c.cache (make_key q p kw) ⟨r, now, 0⟩ hpresent
  · intro hge hne
    obtain ⟨k0, e0, hk0, hmem, _⟩ := oldestKey_spec c.cache hne
    refine ⟨k0, hk0, ?_⟩
    intro hk0ne
    have hc : (c.set now q p r kw).cache =
        insertEntry (eraseKey c.cache k0) (make_key q p kw) ⟨r, now, 0⟩ := by
      simp [SearchCache.set, if_pos hge, evictOldest, hk0]
    rw [hc, lookup_insertEntry_ne _ _ _ _ hk0ne]
    exact lookup_eraseKey_self c.cache k0 hnd

/-- Witness for the amended C1: overwriting the single entry of a
below-capacity cache replaces it in place, preserving cardinality. -/
theorem C1_amended_witness :
    ((([(make_key "q1" "p1" [], (⟨8, 1, 2⟩ : CacheEntry Nat))]).map Prod.fst).Nodup ∧
      (((⟨5, 60, [(make_key "q1" "p1" [], ⟨8, 1, 2⟩)]⟩ : SearchCache Nat)).cache.length : Int) < 5 ∧
      lookup ((⟨5, 60, [(make_key "q1" "p1" [], ⟨8, 1, 2⟩)]⟩ : SearchCache Nat)).cache
        (make_key "q1" "p1" []) ≠ none) ∧
    lookup ((⟨5, 60, [(make_key "q1" "p1" [], ⟨8, 1, 2⟩)]⟩ : SearchCache Nat).set
      3 "q1" "p1" 9 []).cache (make_key "q1" "p1" []) = some ⟨9, 3, 0⟩ ∧
    ((⟨5, 60, [(make_key "q1" "p1" [], ⟨8, 1, 2⟩)]⟩ : SearchCache Nat).set
      3 "q1" "p1" 9 []).cache.length = 1 := by
  have hnd : (([(make_key "q1" "p1" [], (⟨8, 1, 2⟩ : CacheEntry Nat))]).map Prod.fst).Nodup := by
    simp
  have hpresent : lookup ((⟨5, 60, [(make_key "q1" "p1" [], ⟨8, 1, 2⟩)]⟩ :
      SearchCache Nat)).cache (make_key "q1" "p1" []) ≠ none := by
    simp [lookup]
  have h := C1_amended_overwrite (⟨5, 60, [(make_key "q1" "p1" [], ⟨8, 1, 2⟩)]⟩ :
    SearchCache Nat) 3 "q1" "p1" 9 [] hnd
  exact ⟨⟨hnd, by decide, hpresent⟩, h.1, (h.2.1 (by decide)).2 hpresent⟩

/-- C10: construction validates nothing — a cache built with any
non-positive `max_size` is as good a value as any, a subsequent `set`
still succeeds (eviction on the empty map is a no-op, and any single `set`
removes at most one entry), and afterwards the cardinality is 1, which
exceeds `max_size`: the capacity bound fails outside the
positive-`max_size` precondition. -/
theorem C10_no_validation {A : Type} (ms ttl now : Int) (q p : String) (r : A)
    (kw : List (String × PyVal)) (hms : ms ≤ 0) :
    ((SearchCache.mk0 A ms ttl).set now q p r kw).cache.length = 1 ∧
    ms < (((SearchCache.mk0 A ms ttl).set now q p r kw).cache.length : Int) ∧
    evictOldest ([] : List (String × CacheEntry A)) = [] ∧
    (∀ c : SearchCache A, c.cache.length ≤ (c.set now q p r kw).cache.length + 1) := by
  have hge : (((SearchCache.mk0 A ms ttl).cache.length : Int)) ≥
      (SearchCache.mk0 A ms ttl).max_size := by
    simp [SearchCache.mk0]
    omega
  have hone : ((SearchCache.mk0 A ms ttl).set now q p r kw).cache.length = 1 := by
    have hc : ((SearchCache.mk0 A ms ttl).set now q p r kw).cache =
        insertEntry (evictOldest (SearchCache.mk0 A ms ttl).cache) (make_key q p kw)
          ⟨r, now, 0⟩ := by
      simp [SearchCache.set, if_pos hge]
    rw [hc]
    rfl
  refine ⟨hone, by rw [hone]; omega, evictOldest_nil, ?_⟩
  intro c
  by_cases hge2 : (c.cache.length : Int) ≥ c.max_size
  · have hc : (c.set now q p r kw).cache =
        insertEntry (evictOldest c.cache) (make_key q p kw) ⟨r, now, 0⟩ := by
      simp [SearchCache.set, if_pos hge2]
    rw [hc]
    have hins := length_insertEntry_ge (evictOldest c.cache) (make_key q p kw) ⟨r, now, 0⟩
    by_cases hne : c.cache = []
    · rw [hne]
      simp
    · have hev := length_evictOldest c.cache hne
      omega
  · have hc : (c.set now q p r kw).cache =
        insertEntry c.cache (make_key q p kw) ⟨r, now, 0⟩ := by
      simp [SearchCache.set, if_neg hge2]
    rw [hc]
    have hins := length_insertEntry_ge c.cache (make_key q p kw) ⟨r, now, 0⟩
    omega

/-- Witness for C10 at `max_size = 0`: the constructed cache accepts a
`set` and ends with one entry, exceeding its capacity bound. -/
theorem C10_witness :
    (0 : Int) ≤ 0 ∧
    ((SearchCache.mk0 Nat 0 300).set 0 "q" "/p" 7 []).cache.length = 1 ∧
    (0 : Int) < (((SearchCache.mk0 Nat 0 300).set 0 "q" "/p" 7 []).cache.length : Int) :=
  have h := C10_no_validation (A := Nat) 0 300 0 "q" "/p" 7 [] (by decide)
  ⟨by decide, h.1, h.2.1⟩
